import Mathlib

/-!
# Verification of the distributed-cloud-storage core utilities

Shallow embedding of the repository's pure core: the splitter/joiner
(`SplitData` / `JoinChunks`), content addressing (`GenerateFileID`,
`GenerateChunkID`, `CalculateHash`, `ValidateFileID`), the sharded
storage-path derivation (`GetStoragePath`), and the AES-256-GCM
encryption layer (`Encrypt` / `Decrypt`).

Go byte slices are modelled as `List Nat` (each entry a byte value),
Go strings of identifier characters as `List Char`, Go `int` as `Int`,
and fallible operations as `Option` / `Except String` (a Go `panic`
becomes `none`, a returned `error` becomes `Except.error` carrying the
source's message).
-/

namespace DCS

/-! ## Splitter / Joiner (pkg/utils: SplitData, JoinChunks) -/

/-- Loop body of `SplitData` for a positive chunk size `c + 1`:
`for i := 0; i < len(data); i += chunkSize` collecting `data[i:end]`,
expressed with an explicit fuel bound (the loop runs at most
`data.length` iterations, one per collected chunk). -/
def splitGoF (c : Nat) : Nat → List Nat → List (List Nat)
  | _, [] => []
  | 0, _ :: _ => []
  | fuel + 1, x :: xs => ((x :: xs).take (c + 1)) :: splitGoF c fuel ((x :: xs).drop (c + 1))

/-- The `SplitData` loop for positive chunk size `c + 1`. -/
def splitGo (c : Nat) (l : List Nat) : List (List Nat) := splitGoF c l.length l

/-- `SplitData` splits data into chunks of the specified size; for
`chunkSize <= 0` it returns the whole input as a single segment. -/
def SplitData (data : List Nat) (chunkSize : Int) : List (List Nat) :=
  if chunkSize ≤ 0 then [data] else splitGo (chunkSize.toNat - 1) data

/-- `JoinChunks` combines chunks back into the original data by appending
them to an (initially empty) result in sequence order. -/
def JoinChunks (chunks : List (List Nat)) : List Nat :=
  chunks.foldl (fun result chunk => result ++ chunk) []

theorem joinChunks_foldl (chunks : List (List Nat)) :
    ∀ acc : List Nat, chunks.foldl (fun r c => r ++ c) acc = acc ++ JoinChunks chunks := by
  induction chunks with
  | nil => intro acc; simp [JoinChunks]
  | cons x xs ih =>
    intro acc
    simp only [JoinChunks, List.foldl_cons, List.nil_append]
    rw [ih (acc ++ x), ih x, List.append_assoc]

theorem joinChunks_cons (x : List Nat) (xs : List (List Nat)) :
    JoinChunks (x :: xs) = x ++ JoinChunks xs := by
  simp only [JoinChunks, List.foldl_cons, List.nil_append]
  exact joinChunks_foldl xs x

theorem joinChunks_nil : JoinChunks [] = [] := rfl

theorem length_drop_le (c : Nat) (x : Nat) (xs : List Nat) (n : Nat)
    (h : (x :: xs).length ≤ n + 1) : ((x :: xs).drop (c + 1)).length ≤ n := by
  simp only [List.drop_succ_cons, List.length_drop]
  simp only [List.length_cons] at h
  omega

theorem splitGoF_fuel (c : Nat) :
    ∀ (n m : Nat) (l : List Nat), l.length ≤ n → l.length ≤ m →
      splitGoF c n l = splitGoF c m l := by
  intro n
  induction n with
  | zero =>
    intro m l h _
    have : l = [] := List.length_eq_zero.mp (Nat.le_zero.mp h)
    subst this
    cases m <;> rfl
  | succ n ih =>
    intro m l h hm
    cases l with
    | nil => cases m <;> rfl
    | cons x xs =>
      cases m with
      | zero => simp at hm
      | succ m =>
        simp only [splitGoF]
        rw [ih m ((x :: xs).drop (c + 1)) (length_drop_le c x xs n h)
          (length_drop_le c x xs m hm)]

theorem splitGo_cons (c : Nat) (x : Nat) (xs : List Nat) :
    splitGo c (x :: xs) = ((x :: xs).take (c + 1)) :: splitGo c ((x :: xs).drop (c + 1)) := by
  simp only [splitGo, List.length_cons, splitGoF]
  congr 1
  exact splitGoF_fuel c xs.length ((x :: xs).drop (c + 1)).length _
    (length_drop_le c x xs xs.length (by simp)) le_rfl

theorem splitGo_nil (c : Nat) : splitGo c [] = [] := rfl

theorem splitGo_eq_nil_iff (c : Nat) (l : List Nat) : splitGo c l = [] ↔ l = [] := by
  cases l with
  | nil => simp [splitGo_nil]
  | cons x xs => simp [splitGo_cons]

theorem join_splitGo (c : Nat) :
    ∀ (n : Nat) (l : List Nat), l.length ≤ n → JoinChunks (splitGo c l) = l := by
  intro n
  induction n with
  | zero =>
    intro l h
    have : l = [] := List.length_eq_zero.mp (Nat.le_zero.mp h)
    subst this
    simp [splitGo_nil, joinChunks_nil]
  | succ n ih =>
    intro l h
    cases l with
    | nil => simp [splitGo_nil, joinChunks_nil]
    | cons x xs =>
      rw [splitGo_cons, joinChunks_cons, ih]
      · exact List.take_append_drop (c + 1) (x :: xs)
      · exact length_drop_le c x xs n h

theorem splitGo_getD (c : Nat) :
    ∀ (n : Nat) (l : List Nat), l.length ≤ n →
      ∀ i, i < (splitGo c l).length →
        (splitGo c l).getD i [] = (l.drop (i * (c + 1))).take (c + 1) := by
  intro n
  induction n with
  | zero =>
    intro l h i hi
    have : l = [] := List.length_eq_zero.mp (Nat.le_zero.mp h)
    subst this
    simp [splitGo_nil] at hi
  | succ n ih =>
    intro l h i hi
    cases l with
    | nil => simp [splitGo_nil] at hi
    | cons x xs =>
      rw [splitGo_cons] at hi ⊢
      cases i with
      | zero => simp
      | succ i =>
        simp only [List.getD_cons_succ]
        simp only [List.length_cons] at hi
        rw [ih ((x :: xs).drop (c + 1)) (length_drop_le c x xs n h) i (by omega)]
        rw [List.drop_drop]
        congr 1
        ring_nf

theorem splitGo_length_chunk (c : Nat) :
    ∀ (n : Nat) (l : List Nat), l.length ≤ n →
      ∀ i, i + 1 < (splitGo c l).length →
        ((splitGo c l).getD i []).length = c + 1 := by
  intro n
  induction n with
  | zero =>
    intro l h i hi
    have : l = [] := List.length_eq_zero.mp (Nat.le_zero.mp h)
    subst this
    simp [splitGo_nil] at hi
  | succ n ih =>
    intro l h i hi
    cases l with
    | nil => simp [splitGo_nil] at hi
    | cons x xs =>
      rw [splitGo_cons] at hi ⊢
      cases i with
      | zero =>
        simp only [List.getD_cons_zero, List.length_take, List.length_cons]
        simp only [List.length_cons] at hi
        have htail : splitGo c ((x :: xs).drop (c + 1)) ≠ [] := by
          intro hnil
          rw [hnil] at hi
          simp at hi
        have hdrop : (x :: xs).drop (c + 1) ≠ [] :=
          fun hd => htail (by rw [hd, splitGo_nil])
        have hlt : c + 1 < (x :: xs).length := by
          by_contra hle
          exact hdrop (List.drop_eq_nil_of_le (by omega))
        simp only [List.length_cons] at hlt
        omega
      | succ i =>
        simp only [List.getD_cons_succ]
        simp only [List.length_cons] at hi
        exact ih ((x :: xs).drop (c + 1)) (length_drop_le c x xs n h) i (by omega)

theorem splitGo_last (c : Nat) :
    ∀ (n : Nat) (l : List Nat), l.length ≤ n → l ≠ [] →
      1 ≤ ((splitGo c l).getD ((splitGo c l).length - 1) []).length ∧
        ((splitGo c l).getD ((splitGo c l).length - 1) []).length ≤ c + 1 := by
  intro n
  induction n with
  | zero =>
    intro l h hne
    exact absurd (List.length_eq_zero.mp (Nat.le_zero.mp h)) hne
  | succ n ih =>
    intro l h hne
    cases l with
    | nil => exact absurd rfl hne
    | cons x xs =>
      rw [splitGo_cons]
      by_cases hd : (x :: xs).drop (c + 1) = []
      · rw [hd, splitGo_nil]
        have hx : 1 ≤ (x :: xs).length := by simp
        simp only [List.length_singleton, Nat.sub_self, List.getD_cons_zero,
          List.length_take]
        omega
      · have htail : splitGo c ((x :: xs).drop (c + 1)) ≠ [] :=
          fun hnil => hd ((splitGo_eq_nil_iff c _).mp hnil)
        have hlen : 1 ≤ (splitGo c ((x :: xs).drop (c + 1))).length :=
          Nat.one_le_iff_ne_zero.mpr (fun h0 => htail (List.length_eq_zero.mp h0))
        have := ih ((x :: xs).drop (c + 1)) (length_drop_le c x xs n h) hd
        simp only [List.length_cons]
        rw [show (splitGo c ((x :: xs).drop (c + 1))).length + 1 - 1
              = ((splitGo c ((x :: xs).drop (c + 1))).length - 1) + 1 by omega]
        simpa using this

/-- C1: `JoinChunks` is the exact inverse of `SplitData` for every positive
chunk size: `JoinChunks (SplitData data n) = data`, including empty data and
data whose length is not a multiple of `n`. -/
theorem C1_join_split_roundtrip (data : List Nat) (n : Int) (hn : 0 < n) :
    JoinChunks (SplitData data n) = data := by
  rw [SplitData, if_neg (by omega)]
  exact join_splitGo (n.toNat - 1) data.length data le_rfl

/-- Witness for C1 at concrete input: the ten bytes of `"0123456789"` with
chunk size 3 rejoin to the original data. -/
theorem C1_join_split_roundtrip_witness :
    (0 : Int) < 3 ∧
      JoinChunks (SplitData [48, 49, 50, 51, 52, 53, 54, 55, 56, 57] 3)
        = [48, 49, 50, 51, 52, 53, 54, 55, 56, 57] :=
  ⟨by norm_num, C1_join_split_roundtrip [48, 49, 50, 51, 52, 53, 54, 55, 56, 57] 3 (by norm_num)⟩

/-- C3 counterexample: for `chunkSize = 1 > 0` the empty input yields the
empty sequence of chunks, not one empty segment as the claim states. -/
theorem C3_empty_input_counterexample :
    SplitData [] 1 = [] ∧ SplitData [] 1 ≠ [([] : List Nat)] := by
  decide

/-- C3 (amended): `SplitData` returns the whole input as a single segment
whenever `chunkSize ≤ 0` (so the empty input then yields one empty segment),
while for every `chunkSize > 0` the empty input yields zero segments. -/
theorem C3_splitData_edge_cases :
    (∀ (data : List Nat) (chunkSize : Int), chunkSize ≤ 0 → SplitData data chunkSize = [data]) ∧
      (∀ chunkSize : Int, 0 < chunkSize → SplitData [] chunkSize = []) := by
  constructor
  · intro data chunkSize h
    rw [SplitData, if_pos h]
  · intro chunkSize h
    rw [SplitData, if_neg (by omega)]
    exact splitGo_nil _

/-- Witness for C3 (amended) at concrete inputs. -/
theorem C3_splitData_edge_cases_witness :
    SplitData [7, 8] 0 = [[7, 8]] ∧ SplitData [] 3 = [] :=
  ⟨C3_splitData_edge_cases.1 [7, 8] 0 (by norm_num),
   C3_splitData_edge_cases.2 3 (by norm_num)⟩

/-- C4: for non-empty data and positive chunk size, `SplitData` returns the
contiguous slices of the data in order (chunk `i` is the `chunkSize`-byte
slice starting at offset `i * chunkSize`), every chunk except possibly the
last has exactly `chunkSize` bytes, the last has between 1 and `chunkSize`
bytes, and the chunks concatenate back to the data. -/
theorem C4_splitData_chunk_structure (data : List Nat) (chunkSize : Int)
    (hd : data ≠ []) (hc : 0 < chunkSize) :
    SplitData data chunkSize ≠ [] ∧
      (∀ i, i < (SplitData data chunkSize).length →
        (SplitData data chunkSize).getD i []
          = (data.drop (i * chunkSize.toNat)).take chunkSize.toNat) ∧
      (∀ i, i + 1 < (SplitData data chunkSize).length →
        ((SplitData data chunkSize).getD i []).length = chunkSize.toNat) ∧
      1 ≤ ((SplitData data chunkSize).getD ((SplitData data chunkSize).length - 1) []).length ∧
      ((SplitData data chunkSize).getD ((SplitData data chunkSize).length - 1) []).length
        ≤ chunkSize.toNat ∧
      JoinChunks (SplitData data chunkSize) = data := by
  have hc1 : chunkSize.toNat - 1 + 1 = chunkSize.toNat := by omega
  rw [SplitData, if_neg (by omega)]
  refine ⟨?_, ?_, ?_, ?_, ?_, ?_⟩
  · exact fun h => hd ((splitGo_eq_nil_iff _ _).mp h)
  · intro i hi
    rw [splitGo_getD _ data.length data le_rfl i hi, hc1]
  · intro i hi
    rw [splitGo_length_chunk _ data.length data le_rfl i hi, hc1]
  · exact (splitGo_last _ data.length data le_rfl hd).1
  · rw [← hc1]
    exact (splitGo_last _ data.length data le_rfl hd).2
  · exact join_splitGo _ data.length data le_rfl

/-- Witness for C4 at the spec's concrete scenario: the bytes of
`"0123456789"` with chunk size 3 give exactly the chunks `"012"`, `"345"`,
`"678"`, `"9"` (sizes 3, 3, 3, 1), and the structure theorem holds there. -/
theorem C4_splitData_chunk_structure_witness :
    SplitData [48, 49, 50, 51, 52, 53, 54, 55, 56, 57] 3
        = [[48, 49, 50], [51, 52, 53], [54, 55, 56], [57]] ∧
      ([48, 49, 50, 51, 52, 53, 54, 55, 56, 57] : List Nat) ≠ [] ∧ (0 : Int) < 3 ∧
      JoinChunks (SplitData [48, 49, 50, 51, 52, 53, 54, 55, 56, 57] 3)
        = [48, 49, 50, 51, 52, 53, 54, 55, 56, 57] :=
  ⟨by decide, by decide, by norm_num,
   (C4_splitData_chunk_structure [48, 49, 50, 51, 52, 53, 54, 55, 56, 57] 3
      (by decide) (by norm_num)).2.2.2.2.2⟩

/-! ## SHA-256 (Modelled from the spec: the 256-bit cryptographic digest
used for content addressing; the repository calls Go's `crypto/sha256`,
which is not part of the repository's sources, so the FIPS 180-4 SHA-256
function is reproduced here over byte lists, with 32-bit words as `Nat`
reduced modulo `2 ^ 32`.) -/

/-- Truncation to a 32-bit word. -/
def w32 (x : Nat) : Nat := x % 2 ^ 32

/-- 32-bit right rotation. -/
def rotr32 (n x : Nat) : Nat := w32 ((x >>> n) ||| (x <<< (32 - n)))

/-- SHA-256 round constants (fractional parts of cube roots of the first
64 primes). -/
def sha256K : List Nat :=
  [1116352408, 1899447441, 3049323471, 3921009573, 961987163, 1508970993,
   2453635748, 2870763221, 3624381080, 310598401, 607225278, 1426881987,
   1925078388, 2162078206, 2614888103, 3248222580, 3835390401, 4022224774,
   264347078, 604807628, 770255983, 1249150122, 1555081692, 1996064986,
   2554220882, 2821834349, 2952996808, 3210313671, 3336571891, 3584528711,
   113926993, 338241895, 666307205, 773529912, 1294757372, 1396182291,
   1695183700, 1986661051, 2177026350, 2456956037, 2730485921, 2820302411,
   3259730800, 3345764771, 3516065817, 3600352804, 4094571909, 275423344,
   430227734, 506948616, 659060556, 883997877, 958139571, 1322822218,
   1537002063, 1747873779, 1955562222, 2024104815, 2227730452, 2361852424,
   2428436474, 2756734187, 3204031479, 3329325298]

/-- The eight working variables of the SHA-256 compression function. -/
structure Sha256State where
  a : Nat
  b : Nat
  c : Nat
  d : Nat
  e : Nat
  f : Nat
  g : Nat
  h : Nat

/-- SHA-256 initial hash value (fractional parts of square roots of the
first 8 primes). -/
def sha256H0 : Sha256State :=
  ⟨1779033703, 3144134277, 1013904242, 2773480762,
   1359893119, 2600822924, 528734635, 1541459225⟩

/-- Pad a message to a multiple of 64 bytes: append `0x80`, then zero bytes,
then the bit length as an 8-byte big-endian integer. -/
def sha256pad (msg : List Nat) : List Nat :=
  let L := msg.length
  let bitLen := 8 * L
  msg ++ [0x80] ++ List.replicate ((55 + 64 - L % 64) % 64) 0 ++
    [(bitLen >>> 56) % 256, (bitLen >>> 48) % 256, (bitLen >>> 40) % 256, (bitLen >>> 32) % 256,
     (bitLen >>> 24) % 256, (bitLen >>> 16) % 256, (bitLen >>> 8) % 256, bitLen % 256]

/-- Split the padded message into 64-byte blocks (fuelled iteration, one
unit of fuel per block byte as in `splitGoF`). -/
def sha256BlocksF : Nat → List Nat → List (List Nat)
  | _, [] => []
  | 0, _ :: _ => []
  | fuel + 1, x :: xs => ((x :: xs).take 64) :: sha256BlocksF fuel ((x :: xs).drop 64)

/-- Big-endian 32-bit words of a block. -/
def bytesToWords : List Nat → List Nat
  | b0 :: b1 :: b2 :: b3 :: rest =>
      (((b0 % 256) <<< 24) + ((b1 % 256) <<< 16) + ((b2 % 256) <<< 8) + (b3 % 256))
        :: bytesToWords rest
  | _ => []

/-- Small sigma-0: `rotr 7 ^ rotr 18 ^ shr 3`. -/
def ssig0 (x : Nat) : Nat := (rotr32 7 x) ^^^ (rotr32 18 x) ^^^ (x >>> 3)

/-- Small sigma-1: `rotr 17 ^ rotr 19 ^ shr 10`. -/
def ssig1 (x : Nat) : Nat := (rotr32 17 x) ^^^ (rotr32 19 x) ^^^ (x >>> 10)

/-- Extend the 16 block words to the 64-entry message schedule by appending
`steps` further words. -/
def sha256extend : Nat → List Nat → List Nat
  | 0, ws => ws
  | steps + 1, ws =>
      let n := ws.length
      sha256extend steps
        (ws ++ [w32 (ssig1 (ws.getD (n - 2) 0) + ws.getD (n - 7) 0 +
          ssig0 (ws.getD (n - 15) 0) + ws.getD (n - 16) 0)])

/-- One SHA-256 round for round constant `k` and schedule word `w`. -/
def sha256round (st : Sha256State) (k : Nat) (w : Nat) : Sha256State :=
  let S1 := (rotr32 6 st.e) ^^^ (rotr32 11 st.e) ^^^ (rotr32 25 st.e)
  let ch := (st.e &&& st.f) ^^^ ((st.e ^^^ 0xffffffff) &&& st.g)
  let temp1 := w32 (st.h + S1 + ch + k + w)
  let S0 := (rotr32 2 st.a) ^^^ (rotr32 13 st.a) ^^^ (rotr32 22 st.a)
  let maj := (st.a &&& st.b) ^^^ (st.a &&& st.c) ^^^ (st.b &&& st.c)
  let temp2 := w32 (S0 + maj)
  ⟨w32 (temp1 + temp2), st.a, st.b, st.c, w32 (st.d + temp1), st.e, st.f, st.g⟩

/-- Compress one 64-byte block into the running hash state. -/
def sha256compress (st : Sha256State) (block : List Nat) : Sha256State :=
  let ws := sha256extend 48 (bytesToWords block)
  let r := (sha256K.zip ws).foldl (fun s kw => sha256round s kw.1 kw.2) st
  ⟨w32 (st.a + r.a), w32 (st.b + r.b), w32 (st.c + r.c), w32 (st.d + r.d),
   w32 (st.e + r.e), w32 (st.f + r.f), w32 (st.g + r.g), w32 (st.h + r.h)⟩

/-- Big-endian bytes of a 32-bit word. -/
def wordBytes (w : Nat) : List Nat :=
  [(w >>> 24) % 256, (w >>> 16) % 256, (w >>> 8) % 256, w % 256]

/-- Serialize the final hash state to the 32-byte digest. -/
def sha256digestBytes (st : Sha256State) : List Nat :=
  wordBytes st.a ++ wordBytes st.b ++ wordBytes st.c ++ wordBytes st.d ++
    wordBytes st.e ++ wordBytes st.f ++ wordBytes st.g ++ wordBytes st.h

/-- SHA-256 of a byte list: the 32-byte digest. -/
def sha256 (msg : List Nat) : List Nat :=
  let padded := sha256pad msg
  sha256digestBytes ((sha256BlocksF padded.length padded).foldl sha256compress sha256H0)

theorem sha256_length (msg : List Nat) : (sha256 msg).length = 32 := by
  simp [sha256, sha256digestBytes, wordBytes]

theorem sha256_bytes_lt (msg : List Nat) : ∀ b ∈ sha256 msg, b < 256 := by
  intro b hb
  simp only [sha256, sha256digestBytes, wordBytes, List.cons_append, List.nil_append,
    List.mem_cons, List.not_mem_nil, or_false] at hb
  rcases hb with rfl | rfl | rfl | rfl | rfl | rfl | rfl | rfl | rfl | rfl | rfl | rfl |
    rfl | rfl | rfl | rfl | rfl | rfl | rfl | rfl | rfl | rfl | rfl | rfl |
    rfl | rfl | rfl | rfl | rfl | rfl | rfl | rfl <;>
    exact Nat.mod_lt _ (by norm_num)

/-! ## Content addressing (pkg/types: GenerateFileID, GenerateChunkID,
CalculateHash; pkg/utils: ValidateFileID).  Go strings that are hashed are
modelled by their byte lists; identifier strings that are inspected
character by character are modelled as `List Char`. -/

/-- Lowercase hex digit for a value below 16, as produced by Go's
`hex.EncodeToString`. -/
def hexDigitChar (n : Nat) : Char :=
  if n < 10 then Char.ofNat (48 + n) else Char.ofNat (87 + n)

/-- `hex.EncodeToString`: two lowercase hex digits per byte, high nibble
first. -/
def hexEncode (bytes : List Nat) : List Char :=
  bytes.flatMap (fun b => [hexDigitChar (b / 16), hexDigitChar (b % 16)])

/-- `GenerateFileID` hashes the file name's bytes followed by the content
bytes and hex-encodes the digest. -/
def GenerateFileID (name : List Nat) (content : List Nat) : List Char :=
  hexEncode (sha256 (name ++ content))

/-- `GenerateChunkID` hashes the file id's bytes, then the single byte
`byte(index)` (the index truncated to 8 bits), then the content bytes, and
hex-encodes the digest. -/
def GenerateChunkID (fileID : List Nat) (index : Int) (content : List Nat) : List Char :=
  hexEncode (sha256 (fileID ++ [(index.emod 256).toNat] ++ content))

/-- `CalculateHash` hex-encodes the SHA-256 digest of the data. -/
def CalculateHash (data : List Nat) : List Char :=
  hexEncode (sha256 data)

/-- A character Go's `hex.DecodeString` accepts: `0-9`, `a-f`, `A-F`. -/
def isGoHexDigit (c : Char) : Bool :=
  (decide ('0' ≤ c) && decide (c ≤ '9')) ||
    (decide ('a' ≤ c) && decide (c ≤ 'f')) ||
    (decide ('A' ≤ c) && decide (c ≤ 'F'))

/-- `hex.DecodeString` succeeds exactly on even-length strings of hex
digits. -/
def hexDecodeOk (s : List Char) : Bool :=
  s.length % 2 == 0 && s.all isGoHexDigit

/-- `ValidateFileID`: the id must be 64 characters long and decodable as
hex. -/
def ValidateFileID (fileID : List Char) : Bool :=
  fileID.length == 64 && hexDecodeOk fileID

theorem hexEncode_length (bytes : List Nat) : (hexEncode bytes).length = 2 * bytes.length := by
  induction bytes with
  | nil => rfl
  | cons b bs ih =>
    simp only [hexEncode, List.flatMap_cons] at ih ⊢
    simp only [List.length_append, List.length_cons, List.length_nil, ih]
    omega

theorem hexDigitChar_is_hex (n : Nat) (h : n < 16) : isGoHexDigit (hexDigitChar n) = true := by
  revert h
  revert n
  decide

theorem hexEncode_all_hex (bytes : List Nat) (h : ∀ b ∈ bytes, b < 256) :
    (hexEncode bytes).all isGoHexDigit = true := by
  induction bytes with
  | nil => rfl
  | cons b bs ih =>
    simp only [hexEncode, List.flatMap_cons, List.all_append, List.all_cons, List.all_nil,
      Bool.and_true, Bool.and_eq_true] at ih ⊢
    have hb : b < 256 := h b (List.mem_cons_self b bs)
    refine ⟨⟨hexDigitChar_is_hex _ ?_, hexDigitChar_is_hex _ ?_⟩, ?_⟩
    · omega
    · exact Nat.mod_lt _ (by norm_num)
    · exact ih (fun x hx => h x (List.mem_cons_of_mem b hx))

theorem hexEncode_digest_valid (msg : List Nat) : ValidateFileID (hexEncode (sha256 msg)) = true := by
  simp only [ValidateFileID, hexDecodeOk, Bool.and_eq_true, beq_iff_eq]
  refine ⟨?_, ?_, ?_⟩
  · rw [hexEncode_length, sha256_length]
  · rw [hexEncode_length, sha256_length]
  · exact hexEncode_all_hex _ (sha256_bytes_lt msg)

/-- C8: `GenerateFileID` and `CalculateHash` always produce 64-character
hex-encoded 256-bit digests accepted by `ValidateFileID`, and
`ValidateFileID` accepts a string exactly when it is 64 characters of
valid hexadecimal. -/
theorem C8_ids_are_64_hex :
    (∀ name content : List Nat,
      (GenerateFileID name content).length = 64 ∧
        ValidateFileID (GenerateFileID name content) = true) ∧
      (∀ data : List Nat,
        (CalculateHash data).length = 64 ∧ ValidateFileID (CalculateHash data) = true) ∧
      (∀ s : List Char, ValidateFileID s = true ↔ s.length = 64 ∧ s.all isGoHexDigit = true) := by
  refine ⟨?_, ?_, ?_⟩
  · intro name content
    refine ⟨?_, hexEncode_digest_valid _⟩
    rw [GenerateFileID, hexEncode_length, sha256_length]
  · intro data
    refine ⟨?_, hexEncode_digest_valid _⟩
    rw [CalculateHash, hexEncode_length, sha256_length]
  · intro s
    simp only [ValidateFileID, hexDecodeOk, Bool.and_eq_true, beq_iff_eq]
    constructor
    · rintro ⟨h64, _, hall⟩
      exact ⟨h64, hall⟩
    · rintro ⟨h64, hall⟩
      exact ⟨h64, by omega, hall⟩

/-- C2 counterexample: the identifier functions are not injective on their
inputs.  `GenerateFileID` sees only the concatenation of name and content,
so `("ab", "c")` and `("a", "bc")` collide; `GenerateChunkID` truncates the
index to one byte, so indices `0` and `256` collide for the same file id
and content. -/
theorem C2_id_collision_counterexample :
    GenerateFileID [97, 98] [99] = GenerateFileID [97] [98, 99] ∧
      ([97, 98] : List Nat) ≠ [97] ∧
      GenerateChunkID [102] 0 [100] = GenerateChunkID [102] 256 [100] ∧
      (0 : Int) ≠ 256 := by
  refine ⟨rfl, by decide, rfl, by decide⟩

/-- C2 (amended): `GenerateFileID` and `GenerateChunkID` are deterministic
functions of the byte stream fed to the hash — `GenerateFileID` depends
only on the concatenation of name and content, and `GenerateChunkID`
depends on the index only through its low byte (`index mod 256`) — so
identical hash inputs always yield the identical identifier, while inputs
that differ can collide when their hash input streams coincide. -/
theorem C2_ids_deterministic_on_hash_input :
    (∀ name content name' content' : List Nat,
      name ++ content = name' ++ content' →
        GenerateFileID name content = GenerateFileID name' content') ∧
      (∀ (fileID content : List Nat) (i j : Int), i.emod 256 = j.emod 256 →
        GenerateChunkID fileID i content = GenerateChunkID fileID j content) := by
  constructor
  · intro name content name' content' h
    simp only [GenerateFileID, h]
  · intro fileID content i j h
    simp only [GenerateChunkID, h]

/-- Witness for C2 (amended) at concrete inputs. -/
theorem C2_ids_deterministic_on_hash_input_witness :
    GenerateFileID [1, 2] [3] = GenerateFileID [1] [2, 3] ∧
      GenerateChunkID [5] 1 [9] = GenerateChunkID [5] 257 [9] :=
  ⟨C2_ids_deterministic_on_hash_input.1 [1, 2] [3] [1] [2, 3] rfl,
   C2_ids_deterministic_on_hash_input.2 [5] [9] 1 257 rfl⟩

/-! ## Encryption layer (internal/crypto: Encrypt, Decrypt)

The AES-256-GCM AEAD itself comes from Go's `crypto/aes` and
`crypto/cipher`, which are not part of the repository's sources.  It is
modelled from the spec as an ideal authenticated-encryption scheme: `seal`
produces a self-contained ciphertext-with-tag from which `open` recovers
the plaintext exactly when the same key and nonce are supplied and the
blob is byte-for-byte intact — per the spec, opening "fails with
`AuthenticationFailed` when the sealed blob has been truncated, corrupted,
or was sealed under a different key".  In the ideal model the
authentication tag binds the full key, nonce and plaintext transcript. -/

/-- GCM's standard nonce size in bytes. -/
def gcmNonceSize : Nat := 12

/-- Modelled from the spec: ideal AEAD seal.  The ciphertext-with-tag
records the plaintext length and binds plaintext, key and nonce; the
plaintext occurs twice so that any single-byte change is detectable. -/
def gcmSeal (key nonce plaintext : List Nat) : List Nat :=
  plaintext.length :: (plaintext ++ key ++ nonce ++ plaintext)

/-- Modelled from the spec: ideal AEAD open.  Succeeds exactly on blobs
produced by `gcmSeal` with the same key and nonce. -/
def gcmOpen (key nonce ct : List Nat) : Option (List Nat) :=
  match ct with
  | [] => none
  | p :: rest =>
    if rest.length = 2 * p + key.length + nonce.length ∧
        rest = rest.take p ++ key ++ nonce ++ rest.take p then
      some (rest.take p)
    else none

/-- `Encrypt` (internal/crypto): checks the 32-byte key length, then seals
under a fresh nonce and prepends the nonce (`gcm.Seal(nonce, nonce, data,
nil)`).  The randomly drawn nonce is passed explicitly. -/
def Encrypt (data key nonce : List Nat) : Except String (List Nat) :=
  if key.length ≠ 32 then Except.error "key must be 32 bytes for AES-256"
  else Except.ok (nonce ++ gcmSeal key nonce data)

/-- `Decrypt` (internal/crypto): checks the 32-byte key length and the
minimum length, splits off the nonce, and opens the remainder. -/
def Decrypt (ciphertext key : List Nat) : Except String (List Nat) :=
  if key.length ≠ 32 then Except.error "key must be 32 bytes for AES-256"
  else if ciphertext.length < gcmNonceSize then Except.error "ciphertext too short"
  else
    match gcmOpen key (ciphertext.take gcmNonceSize) (ciphertext.drop gcmNonceSize) with
    | some plaintext => Except.ok plaintext
    | none => Except.error "cipher: message authentication failed"

theorem gcmOpen_seal (key nonce pt : List Nat) :
    gcmOpen key nonce (gcmSeal key nonce pt) = some pt := by
  have htake : (pt ++ key ++ nonce ++ pt).take pt.length = pt := by
    rw [List.append_assoc, List.append_assoc, List.take_left]
  have hcond : (pt ++ key ++ nonce ++ pt).length
      = 2 * pt.length + key.length + nonce.length ∧
      pt ++ key ++ nonce ++ pt
        = (pt ++ key ++ nonce ++ pt).take pt.length ++ key ++ nonce ++
            (pt ++ key ++ nonce ++ pt).take pt.length := by
    refine ⟨?_, by rw [htake]⟩
    simp only [List.length_append]
    omega
  simp only [gcmSeal, gcmOpen]
  rw [if_pos hcond, htake]

theorem gcmOpen_sound (key nonce ct pt : List Nat) (h : gcmOpen key nonce ct = some pt) :
    ct = gcmSeal key nonce pt := by
  match ct with
  | [] => simp [gcmOpen] at h
  | p :: rest =>
    rw [gcmOpen] at h
    split at h
    · rename_i hcond
      obtain ⟨hlen, heq⟩ := hcond
      have hpt : pt = rest.take p := by
        injection h with h
        exact h.symm
      have hlenpt : pt.length = p := by
        rw [hpt, List.length_take]
        omega
      rw [gcmSeal, hlenpt, hpt, ← heq]
    · exact absurd h (by simp)

theorem decrypt_sound (blob key pt : List Nat) (h : Decrypt blob key = Except.ok pt) :
    key.length = 32 ∧ gcmNonceSize ≤ blob.length ∧
      blob = blob.take gcmNonceSize ++ gcmSeal key (blob.take gcmNonceSize) pt := by
  rw [Decrypt] at h
  split at h
  · exact absurd h (by simp)
  · split at h
    · exact absurd h (by simp)
    · rename_i hk hlen
      refine ⟨by omega, by omega, ?_⟩
      revert h
      match hopen : gcmOpen key (blob.take gcmNonceSize) (blob.drop gcmNonceSize) with
      | none => intro h; exact absurd h (by simp)
      | some q =>
        intro h
        have hq : q = pt := by injection h
        subst hq
        rw [← gcmOpen_sound _ _ _ _ hopen]
        exact (List.take_append_drop gcmNonceSize blob).symm

/-- C5: for every plaintext, every 32-byte key and every 12-byte nonce,
`Encrypt` succeeds and produces the nonce-prefixed sealed blob, and
`Decrypt` applied to that blob with only the key recovers the original
plaintext. -/
theorem C5_encrypt_decrypt_roundtrip (data key nonce : List Nat)
    (hk : key.length = 32) (hn : nonce.length = gcmNonceSize) :
    Encrypt data key nonce = Except.ok (nonce ++ gcmSeal key nonce data) ∧
      Decrypt (nonce ++ gcmSeal key nonce data) key = Except.ok data := by
  constructor
  · rw [Encrypt, if_neg (by omega)]
  · rw [Decrypt, if_neg (by omega), if_neg ?hlen]
    case hlen =>
      simp only [List.length_append, gcmSeal, List.length_cons, Nat.not_lt]
      omega
    have htake : (nonce ++ gcmSeal key nonce data).take gcmNonceSize = nonce := by
      rw [← hn, List.take_left]
    have hdrop : (nonce ++ gcmSeal key nonce data).drop gcmNonceSize = gcmSeal key nonce data := by
      rw [← hn, List.drop_left]
    rw [htake, hdrop, gcmOpen_seal]

/-- Witness for C5 at a concrete key, nonce and plaintext. -/
theorem C5_encrypt_decrypt_roundtrip_witness :
    (List.replicate 32 7).length = 32 ∧
      Decrypt (List.replicate 12 1 ++ gcmSeal (List.replicate 32 7) (List.replicate 12 1) [10, 20])
          (List.replicate 32 7)
        = Except.ok [10, 20] :=
  ⟨by decide,
   (C5_encrypt_decrypt_roundtrip [10, 20] (List.replicate 32 7) (List.replicate 12 1)
      (by decide) (by decide)).2⟩

/-- C6: both `Encrypt` and `Decrypt` reject any key that is not exactly 32
bytes with the invalid-key-length error and produce no output, and a
32-byte key is never rejected by the key-length check: `Encrypt` then
succeeds, and `Decrypt` never reports the key-length error. -/
theorem C6_key_length_check :
    (∀ data key nonce : List Nat, key.length ≠ 32 →
      Encrypt data key nonce = Except.error "key must be 32 bytes for AES-256") ∧
      (∀ ciphertext key : List Nat, key.length ≠ 32 →
        Decrypt ciphertext key = Except.error "key must be 32 bytes for AES-256") ∧
      (∀ data key nonce : List Nat, key.length = 32 →
        Encrypt data key nonce = Except.ok (nonce ++ gcmSeal key nonce data)) ∧
      (∀ ciphertext key : List Nat, key.length = 32 →
        Decrypt ciphertext key ≠ Except.error "key must be 32 bytes for AES-256") := by
  refine ⟨?_, ?_, ?_, ?_⟩
  · intro data key nonce h
    rw [Encrypt, if_pos h]
  · intro ciphertext key h
    rw [Decrypt, if_pos h]
  · intro data key nonce h
    rw [Encrypt, if_neg (by omega)]
  · intro ciphertext key h
    rw [Decrypt, if_neg (by omega)]
    split
    · intro hc
      injection hc with hc
      exact absurd hc (by decide)
    · split
      · intro hc
        exact absurd hc (by simp)
      · intro hc
        injection hc with hc
        exact absurd hc (by decide)

/-- Witness for C6 at concrete keys of the wrong and the right length. -/
theorem C6_key_length_check_witness :
    Encrypt [1] [0, 0, 0] [2] = Except.error "key must be 32 bytes for AES-256" ∧
      Decrypt [1, 2, 3] [0, 0, 0] = Except.error "key must be 32 bytes for AES-256" ∧
      Encrypt [1] (List.replicate 32 0) [2]
        = Except.ok ([2] ++ gcmSeal (List.replicate 32 0) [2] [1]) ∧
      Decrypt [9] (List.replicate 32 0) ≠ Except.error "key must be 32 bytes for AES-256" :=
  ⟨C6_key_length_check.1 [1] [0, 0, 0] [2] (by decide),
   C6_key_length_check.2.1 [1, 2, 3] [0, 0, 0] (by decide),
   C6_key_length_check.2.2.1 [1] (List.replicate 32 0) [2] (by decide),
   C6_key_length_check.2.2.2 [9] (List.replicate 32 0) (by decide)⟩

/-! ### Tamper detection -/

/-- Hamming distance of two byte lists (positions beyond the shorter list
are ignored; it is only used on lists of equal length). -/
def ham : List Nat → List Nat → Nat
  | x :: xs, y :: ys => (if x = y then 0 else 1) + ham xs ys
  | _, _ => 0

theorem ham_cons (x y : Nat) (xs ys : List Nat) :
    ham (x :: xs) (y :: ys) = (if x = y then 0 else 1) + ham xs ys := rfl

theorem ham_self (l : List Nat) : ham l l = 0 := by
  induction l with
  | nil => rfl
  | cons x xs ih => simp [ham_cons, ih]

theorem ham_append (a : List Nat) : ∀ (c b d : List Nat), a.length = c.length →
    ham (a ++ b) (c ++ d) = ham a c + ham b d := by
  induction a with
  | nil =>
    intro c b d h
    have hc : c = [] := List.length_eq_zero.mp (by simpa using h.symm)
    subst hc
    simp [ham]
  | cons x xs ih =>
    intro c b d h
    cases c with
    | nil => simp at h
    | cons y ys =>
      simp only [List.cons_append, ham_cons]
      rw [ih ys b d (by simpa using h)]
      omega

theorem ham_set (l : List Nat) : ∀ (i b : Nat), l.set i b ≠ l → ham l (l.set i b) = 1 := by
  induction l with
  | nil => intro i b h; simp at h
  | cons x xs ih =>
    intro i b h
    cases i with
    | zero =>
      have hxb : x ≠ b := by
        intro he
        subst he
        simp at h
      simp only [List.set_cons_zero, ham_cons, if_neg hxb, ham_self]
    | succ i =>
      have hxs : xs.set i b ≠ xs := by
        intro he
        apply h
        simp [List.set_cons_succ, he]
      simp [List.set_cons_succ, ham_cons, ih i b hxs]

theorem gcmSeal_length (key nonce pt : List Nat) :
    (gcmSeal key nonce pt).length = 2 * pt.length + key.length + nonce.length + 1 := by
  simp only [gcmSeal, List.length_cons, List.length_append]
  omega

/-- The Hamming distance between two well-formed nonce-prefixed sealed
blobs under the same key is even: every byte other than the key and the
recorded length occurs in two copies, and those occur once each but agree
by hypothesis. -/
theorem ham_seal_seal (data pt' key nonce w : List Nat)
    (hw : nonce.length = w.length) (hPP : data.length = pt'.length) :
    ham (nonce ++ gcmSeal key nonce data) (w ++ gcmSeal key w pt')
      = 2 * ham nonce w + 2 * ham data pt' := by
  rw [ham_append nonce (w) (gcmSeal key nonce data) (gcmSeal key w pt') hw]
  simp only [gcmSeal, ham_cons, if_pos hPP]
  rw [ham_append (data ++ key ++ nonce) (pt' ++ key ++ w) data pt'
    (by simp only [List.length_append]; omega)]
  rw [ham_append (data ++ key) (pt' ++ key) nonce w
    (by simp only [List.length_append]; omega)]
  rw [ham_append data pt' key key hPP]
  rw [ham_self key]
  omega

theorem decrypt_not_ok (blob key : List Nat) (hk : key.length = 32)
    (hlen : gcmNonceSize ≤ blob.length)
    (h : ∀ pt, Decrypt blob key ≠ Except.ok pt) :
    Decrypt blob key = Except.error "cipher: message authentication failed" := by
  cases hopen : gcmOpen key (blob.take gcmNonceSize) (blob.drop gcmNonceSize) with
  | some q =>
    exfalso
    apply h q
    rw [Decrypt, if_neg (by omega), if_neg (by omega), hopen]
  | none =>
    rw [Decrypt, if_neg (by omega), if_neg (by omega), hopen]

theorem decrypt_truncated (data key nonce : List Nat) (m : Nat)
    (hk : key.length = 32) (hn : nonce.length = gcmNonceSize)
    (hm : m < (nonce ++ gcmSeal key nonce data).length) (pt' : List Nat) :
    Decrypt ((nonce ++ gcmSeal key nonce data).take m) key ≠ Except.ok pt' := by
  intro hok
  obtain ⟨-, h12, hsnd⟩ := decrypt_sound _ _ _ hok
  rw [gcmNonceSize] at hn
  have hlb : (nonce ++ gcmSeal key nonce data).length = 2 * data.length + 57 := by
    rw [List.length_append, gcmSeal_length]
    omega
  by_cases hm12 : m < 12
  · have hmm : ((nonce ++ gcmSeal key nonce data).take m).length = m := by
      rw [List.length_take]
      omega
    rw [gcmNonceSize] at h12
    omega
  · have htt : ((nonce ++ gcmSeal key nonce data).take m).take gcmNonceSize = nonce := by
      rw [List.take_take, gcmNonceSize]
      rw [show min 12 m = 12 by omega]
      rw [← hn, List.take_left]
    rw [htt] at hsnd
    have hsplit : (nonce ++ gcmSeal key nonce data).take m
        = nonce ++ (gcmSeal key nonce data).take (m - 12) := by
      rw [List.take_append_eq_append_take, hn]
      congr 1
      exact List.take_of_length_le (by omega)
    rw [hsplit] at hsnd
    have hseal := List.append_cancel_left hsnd
    have hlenle := congrArg List.length hseal
    rw [List.length_take, gcmSeal_length, gcmSeal_length, hk, hn] at hlenle
    have hptlt : pt'.length < data.length := by omega
    obtain ⟨mm, hmmeq⟩ : ∃ mm, m - 12 = mm + 1 := ⟨m - 13, by omega⟩
    simp only [gcmSeal, hmmeq, List.take_succ_cons] at hseal
    have hheads : data.length = pt'.length := by
      injection hseal
    omega

theorem decrypt_corrupt (data key nonce : List Nat) (i b : Nat)
    (hk : key.length = 32) (hn : nonce.length = gcmNonceSize)
    (hne : (nonce ++ gcmSeal key nonce data).set i b ≠ nonce ++ gcmSeal key nonce data)
    (pt' : List Nat) :
    Decrypt ((nonce ++ gcmSeal key nonce data).set i b) key ≠ Except.ok pt' := by
  intro hok
  obtain ⟨-, -, hsnd⟩ := decrypt_sound _ _ _ hok
  rw [gcmNonceSize] at hn
  have hlb : (nonce ++ gcmSeal key nonce data).length = 2 * data.length + 57 := by
    rw [List.length_append, gcmSeal_length]
    omega
  have hls : ((nonce ++ gcmSeal key nonce data).set i b).length
      = 2 * data.length + 57 := by
    rw [List.length_set, hlb]
  have hw : (((nonce ++ gcmSeal key nonce data).set i b).take gcmNonceSize).length = 12 := by
    rw [List.length_take, hls, gcmNonceSize]
    omega
  have hlen_eq := congrArg List.length hsnd
  rw [hls, List.length_append, gcmSeal_length, hw, hk] at hlen_eq
  have hPP : data.length = pt'.length := by omega
  have hham1 : ham (nonce ++ gcmSeal key nonce data)
      ((nonce ++ gcmSeal key nonce data).set i b) = 1 := ham_set _ i b hne
  rw [hsnd] at hham1
  rw [ham_seal_seal data pt' key nonce _ (by rw [hn, hw]) hPP] at hham1
  omega

theorem decrypt_wrong_key (data key key2 nonce : List Nat)
    (hk : key.length = 32) (hk2 : key2.length = 32) (hn : nonce.length = gcmNonceSize)
    (hkk : key ≠ key2) (pt' : List Nat) :
    Decrypt (nonce ++ gcmSeal key nonce data) key2 ≠ Except.ok pt' := by
  intro hok
  obtain ⟨-, -, hsnd⟩ := decrypt_sound _ _ _ hok
  have htake : (nonce ++ gcmSeal key nonce data).take gcmNonceSize = nonce := by
    rw [← hn, List.take_left]
  rw [htake] at hsnd
  have hseal := List.append_cancel_left hsnd
  simp only [gcmSeal] at hseal
  have h1 : data.length = pt'.length := by injection hseal
  have h2 : data ++ key ++ nonce ++ data = pt' ++ key2 ++ nonce ++ pt' := by
    injection hseal
  obtain ⟨h3, -⟩ := List.append_inj h2 (by simp only [List.length_append]; omega)
  obtain ⟨h4, -⟩ := List.append_inj h3 (by simp only [List.length_append]; omega)
  obtain ⟨-, h5⟩ := List.append_inj h4 h1
  exact hkk h5

/-- C7: with a 32-byte key, `Decrypt` fails (with an error and no
plaintext) on any sealed blob that is shorter than the nonce, any strict
truncation of a valid nonce-prefixed sealed blob, any single-byte
corruption of a valid blob, and any valid blob decrypted under a different
32-byte key; in the last two cases the reported error is the
authentication failure. -/
theorem C7_decrypt_tamper_detection :
    (∀ ciphertext key : List Nat, key.length = 32 → ciphertext.length < gcmNonceSize →
      Decrypt ciphertext key = Except.error "ciphertext too short") ∧
    (∀ data key nonce : List Nat, ∀ m : Nat, key.length = 32 → nonce.length = gcmNonceSize →
      m < (nonce ++ gcmSeal key nonce data).length →
      ∀ pt', Decrypt ((nonce ++ gcmSeal key nonce data).take m) key ≠ Except.ok pt') ∧
    (∀ data key nonce : List Nat, ∀ i b : Nat, key.length = 32 → nonce.length = gcmNonceSize →
      (nonce ++ gcmSeal key nonce data).set i b ≠ nonce ++ gcmSeal key nonce data →
      Decrypt ((nonce ++ gcmSeal key nonce data).set i b) key
        = Except.error "cipher: message authentication failed") ∧
    (∀ data key key2 nonce : List Nat, key.length = 32 → key2.length = 32 →
      nonce.length = gcmNonceSize → key ≠ key2 →
      Decrypt (nonce ++ gcmSeal key nonce data) key2
        = Except.error "cipher: message authentication failed") := by
  refine ⟨?_, ?_, ?_, ?_⟩
  · intro ciphertext key hk hshort
    rw [Decrypt, if_neg (by omega), if_pos hshort]
  · intro data key nonce m hk hn hm pt'
    exact decrypt_truncated data key nonce m hk hn hm pt'
  · intro data key nonce i b hk hn hne
    apply decrypt_not_ok _ _ hk
    · rw [List.length_set, List.length_append, gcmSeal_length]
      rw [gcmNonceSize] at hn ⊢
      omega
    · exact fun pt => decrypt_corrupt data key nonce i b hk hn hne pt
  · intro data key key2 nonce hk hk2 hn hkk
    apply decrypt_not_ok _ _ hk2
    · rw [List.length_append, gcmSeal_length]
      rw [gcmNonceSize] at hn ⊢
      omega
    · exact fun pt => decrypt_wrong_key data key key2 nonce hk hk2 hn hkk pt

/-- Witness for C7: a too-short blob, a truncation, a one-byte corruption
and a wrong key, all at concrete inputs. -/
theorem C7_decrypt_tamper_detection_witness :
    Decrypt [1, 2] (List.replicate 32 0) = Except.error "ciphertext too short" ∧
      Decrypt ((List.replicate 12 0 ++
          gcmSeal (List.replicate 32 0) (List.replicate 12 0) [5]).take 5)
          (List.replicate 32 0) ≠ Except.ok [] ∧
      Decrypt ((List.replicate 12 0 ++
          gcmSeal (List.replicate 32 0) (List.replicate 12 0) [5]).set 0 99)
          (List.replicate 32 0)
        = Except.error "cipher: message authentication failed" ∧
      Decrypt (List.replicate 12 0 ++
          gcmSeal (List.replicate 32 0) (List.replicate 12 0) [5])
          (List.replicate 32 1)
        = Except.error "cipher: message authentication failed" :=
  ⟨C7_decrypt_tamper_detection.1 [1, 2] (List.replicate 32 0) (by decide) (by decide),
   C7_decrypt_tamper_detection.2.1 [5] (List.replicate 32 0) (List.replicate 12 0) 5
     (by decide) (by decide) (by decide) [],
   C7_decrypt_tamper_detection.2.2.1 [5] (List.replicate 32 0) (List.replicate 12 0) 0 99
     (by decide) (by decide) (by decide),
   C7_decrypt_tamper_detection.2.2.2 [5] (List.replicate 32 0) (List.replicate 32 1)
     (List.replicate 12 0) (by decide) (by decide) (by decide) (by decide)⟩

/-! ## Sharded storage paths (pkg/utils: GetStoragePath) -/

/-- Modelled from the spec: the on-disk layout joins path components with
a slash (`<baseDir>/<2-hex-char-shard>/<id>`); Go's `filepath.Join`
concatenates its non-empty elements with the separator (its additional
path cleaning is the identity on the separator-free components used
here). -/
def filepathJoinNE : List (List Char) → List Char
  | [] => []
  | x :: xs => xs.foldl (fun acc s => acc ++ '/' :: s) x

def filepathJoin (elems : List (List Char)) : List Char :=
  filepathJoinNE (elems.filter (fun s => !s.isEmpty))

/-- Go string slicing `s[:n]`: panics (modelled as `none`) when
`n > len(s)`. -/
def goSliceTo (s : List Char) (n : Nat) : Option (List Char) :=
  if n ≤ s.length then some (s.take n) else none

/-- `GetStoragePath` shards by the first two characters of the file id:
`filepath.Join(baseDir, fileID[:2], fileID)`.  The slice `fileID[:2]`
panics (`none`) when the id has fewer than two characters. -/
def GetStoragePath (baseDir fileID : List Char) : Option (List Char) :=
  match goSliceTo fileID 2 with
  | none => none
  | some subDir => some (filepathJoin [baseDir, subDir, fileID])

/-- C9: for every `baseDir` and every id with at least two characters,
the storage path is `baseDir` joined with the two-character shard
subdirectory joined with the id; for non-empty `baseDir` that is literally
`baseDir ++ "/" ++ fileID[:2] ++ "/" ++ fileID`. -/
theorem C9_storage_path_sharded (baseDir fileID : List Char) (h2 : 2 ≤ fileID.length) :
    GetStoragePath baseDir fileID = some (filepathJoin [baseDir, fileID.take 2, fileID]) ∧
      (baseDir ≠ [] →
        GetStoragePath baseDir fileID
          = some (baseDir ++ '/' :: fileID.take 2 ++ '/' :: fileID)) := by
  have hslice : goSliceTo fileID 2 = some (fileID.take 2) := by
    rw [goSliceTo, if_pos h2]
  have hfid : fileID ≠ [] := by
    intro he
    rw [he] at h2
    simp at h2
  have htk : fileID.take 2 ≠ [] := by
    intro he
    have hlen := congrArg List.length he
    rw [List.length_take] at hlen
    simp only [List.length_nil] at hlen
    omega
  constructor
  · rw [GetStoragePath, hslice]
  · intro hb
    simp only [GetStoragePath, hslice]
    have hfil : [baseDir, fileID.take 2, fileID].filter (fun s => !s.isEmpty)
        = [baseDir, fileID.take 2, fileID] := by
      rw [List.filter_eq_self]
      intro a ha
      simp only [List.mem_cons, List.not_mem_nil, or_false] at ha
      rcases ha with rfl | rfl | rfl
      · simpa using hb
      · simpa using htk
      · simpa using hfid
    unfold filepathJoin
    rw [hfil]
    simp only [filepathJoinNE, List.foldl_cons, List.foldl_nil, List.append_assoc]

/-- Witness for C9 at the repository test's concrete inputs. -/
theorem C9_storage_path_sharded_witness :
    2 ≤ ('a' :: 'b' :: 'c' :: 'd' :: []).length ∧
      GetStoragePath ('/' :: 's' :: []) ('a' :: 'b' :: 'c' :: 'd' :: [])
        = some ('/' :: 's' :: '/' :: 'a' :: 'b' :: '/' :: 'a' :: 'b' :: 'c' :: 'd' :: []) :=
  ⟨by decide,
   by
    rw [(C9_storage_path_sharded ('/' :: 's' :: []) ('a' :: 'b' :: 'c' :: 'd' :: [])
      (by decide)).2 (by decide)]
    decide⟩

/-- C10: `GetStoragePath` is partial: it panics (modelled as `none`)
exactly on ids with fewer than two characters — in particular on the empty
id — so totality needs the unstated precondition `len(fileID) ≥ 2`. -/
theorem C10_storage_path_partial (baseDir fileID : List Char) :
    (GetStoragePath baseDir fileID = none ↔ fileID.length < 2) ∧
      GetStoragePath baseDir [] = none := by
  constructor
  · rw [GetStoragePath, goSliceTo]
    by_cases h : 2 ≤ fileID.length
    · rw [if_pos h]
      simp
      omega
    · rw [if_neg h]
      simp
      omega
  · rfl

end DCS
